import Mathlib

/-!
Shallow embedding of the pizzapostr rendering/animation core and its
persistence boundary, with theorems settling the specification claims.

Machine numbers are modelled exactly: the scheduling arithmetic is over ℚ
(every constant in the source is a decimal literal, exactly representable),
and quantities built from π, cos or sqrt live in ℝ.  Byte stores into
Uint8ClampedArray are modelled by round-half-to-even followed by clamping
to [0, 255].
-/

/-- JavaScript truncating quotient used by the `%` operator: the quotient
rounded toward zero. -/
def ratTrunc (q : ℚ) : ℤ :=
  if 0 ≤ q then ⌊q⌋ else ⌈q⌉

/-- JavaScript remainder `a % b`: `a - b * trunc (a / b)` (sign follows the
dividend). -/
def jsMod (a b : ℚ) : ℚ :=
  a - b * ratTrunc (a / b)

/-- The positive-modulo idiom `((a % b) + b) % b` used by the schedulers. -/
def posMod (a b : ℚ) : ℚ :=
  jsMod (jsMod a b + b) b

/-- Embeds `easeInOutCubic` (src/unnamed/part_000, duplicated in
PizzaCanvas.tsx and pizzaRenderer.ts):
`t < 0.5 ? 4 * t * t * t : 1 - Math.pow(-2 * t + 2, 3) / 2`. -/
def easeInOutCubic (t : ℚ) : ℚ :=
  if t < 0.5 then 4 * t * t * t else 1 - (-2 * t + 2) ^ 3 / 2

/-- Embeds `getFlipAngle` (src/unnamed/part_000): whole-pizza coin-flip
angle at a given time.  The wrapped rational time picks one of four phases;
the returned angle is a real multiple of π. -/
noncomputable def getFlipAngle (time : ℚ) : ℝ :=
  let flipDuration : ℚ := 0.7
  let pauseDuration : ℚ := 0.35
  let cycleDuration : ℚ := 2 * flipDuration + 2 * pauseDuration
  let t : ℚ := posMod time cycleDuration
  if t < flipDuration then
    (easeInOutCubic (t / flipDuration) : ℝ) * Real.pi
  else if t < flipDuration + pauseDuration then
    Real.pi
  else if t < 2 * flipDuration + pauseDuration then
    Real.pi + (easeInOutCubic ((t - flipDuration - pauseDuration) / flipDuration) : ℝ) * Real.pi
  else
    0

/-- Embeds `getWaveOffsets` (src/unnamed/part_000): per-slice rotation
offsets for the wave animation; the loop over `s = 0..7` pushing onto the
result array becomes `List.ofFn` over `Fin 8`. -/
noncomputable def getWaveOffsets (time : ℚ) (reverse : Bool) : List ℝ :=
  let sliceDuration : ℚ := 0.8
  let stagger : ℚ := 0.25 * sliceDuration
  let cycleDuration : ℚ := sliceDuration + 7 * stagger
  let t : ℚ := posMod time cycleDuration
  List.ofFn (fun s : Fin 8 =>
    let idx : ℕ := if reverse then 7 - s.val else s.val
    let sliceStart : ℚ := idx * stagger
    let progress : ℚ := max 0 (min 1 ((t - sliceStart) / sliceDuration))
    (easeInOutCubic progress : ℝ) * Real.pi * 2)

/-- Embeds `SLICE_POSITIONS` (PizzaCanvas.tsx): the fixed 9-slot table of
(angle-fraction, radius-fraction) pairs within a slice. -/
def SLICE_POSITIONS : List (ℚ × ℚ) :=
  [(0.50, 0.15), (0.30, 0.37), (0.70, 0.37),
   (0.22, 0.58), (0.50, 0.55), (0.78, 0.58),
   (0.22, 0.80), (0.50, 0.78), (0.78, 0.80)]

/-- Embeds `distributePositions` (PizzaCanvas.tsx): spreads N point
toppings over the 9 fixed slot indices. -/
def distributePositions (count : ℕ) : List (List ℕ) :=
  if count = 0 then []
  else if count = 1 then [[0, 1, 4, 6, 8]]
  else if count = 2 then [[0, 2, 5, 7], [1, 3, 6, 8]]
  else if count = 3 then [[0, 4, 8], [1, 5, 6], [2, 3, 7]]
  else [[0, 8], [1, 5], [4, 6], [3, 7]]

/-- Embeds `MAX_TOPPINGS` (PizzaCanvas.tsx). -/
def MAX_TOPPINGS : ℕ := 4

/-- Embeds `toggleTopping` (PizzaCanvas.tsx): the state update applied to
the selected-toppings set; a present id is removed, an absent one is added
only below the cap. -/
def toggleTopping (prev : Finset String) (topping : String) : Finset String :=
  if topping ∈ prev then prev.erase topping
  else if prev.card < MAX_TOPPINGS then insert topping prev
  else prev

/-- Round-half-to-even, the rounding used when a float is stored into a
`Uint8ClampedArray` entry. -/
def roundHalfEven {α : Type} [LinearOrderedField α] [FloorRing α] (q : α) : ℤ :=
  if q - ⌊q⌋ < 1 / 2 then ⌊q⌋
  else if 1 / 2 < q - ⌊q⌋ then ⌊q⌋ + 1
  else if Even ⌊q⌋ then ⌊q⌋ else ⌊q⌋ + 1

/-- A store into a `Uint8ClampedArray` entry: round half-to-even, then
clamp into `[0, 255]`. -/
def clampToByte {α : Type} [LinearOrderedField α] [FloorRing α] (q : α) : ℤ :=
  max 0 (min 255 (roundHalfEven q))

/-- Embeds `applyMonoFilter` (pizzaRenderer.ts) as a pure buffer
transform: the pixel buffer is a linear RGBA byte array (index `j`,
channel `j % 4`); the loop writes the luminance
`0.299 * d[i] + 0.587 * d[i+1] + 0.114 * d[i+2]` into the three colour
channels of each pixel and leaves alpha untouched. -/
def applyMonoFilter (d : ℕ → ℤ) : ℕ → ℤ := fun j =>
  let p := 4 * (j / 4)
  if j % 4 = 3 then d j
  else clampToByte (0.299 * (d p : ℚ) + 0.587 * (d (p + 1) : ℚ) + 0.114 * (d (p + 2) : ℚ))

/-- Embeds `applyNegativeFilter` (pizzaRenderer.ts): each colour channel
is replaced by `255 - channel`, alpha untouched. -/
def applyNegativeFilter (d : ℕ → ℤ) : ℕ → ℤ := fun j =>
  if j % 4 = 3 then d j
  else clampToByte ((255 : ℚ) - (d j : ℚ))

/-- Embeds the per-slice flip transform fields computed in `drawPizza`
(pizzaRenderer.ts, wave branch): `Math.abs(cosFlip) || 0.001` — the
JavaScript or-else yields 0.001 exactly when `|cos|` is 0 (falsy). -/
noncomputable def scalePerp (offset : ℝ) : ℝ :=
  if |Real.cos offset| = 0 then 0.001 else |Real.cos offset|

/-- Embeds the face selection in `drawPizza` (pizzaRenderer.ts, wave
branch): `const showBack = cosFlip < 0`. -/
def showBack (offset : ℝ) : Prop :=
  Real.cos offset < 0

/-- Grayscale luminance of pixel `i` of an RGBA byte buffer, as computed
at the start of `applyNeonFilter` (pizzaRenderer.ts). -/
def greyAt (d : ℕ → ℤ) (i : ℕ) : ℚ :=
  0.299 * (d (4 * i) : ℚ) + 0.587 * (d (4 * i + 1) : ℚ) + 0.114 * (d (4 * i + 2) : ℚ)

/-- Horizontal Sobel response at linear pixel index `idx`
(`applyNeonFilter`, pizzaRenderer.ts). -/
def sobelGx (d : ℕ → ℤ) (w idx : ℕ) : ℚ :=
  -greyAt d (idx - w - 1) + greyAt d (idx - w + 1)
    - 2 * greyAt d (idx - 1) + 2 * greyAt d (idx + 1)
    - greyAt d (idx + w - 1) + greyAt d (idx + w + 1)

/-- Vertical Sobel response at linear pixel index `idx`
(`applyNeonFilter`, pizzaRenderer.ts). -/
def sobelGy (d : ℕ → ℤ) (w idx : ℕ) : ℚ :=
  -greyAt d (idx - w - 1) - 2 * greyAt d (idx - w) - greyAt d (idx - w + 1)
    + greyAt d (idx + w - 1) + 2 * greyAt d (idx + w) + greyAt d (idx + w + 1)

/-- Sobel edge magnitude of the pixel at `(x, y)`: the loops in
`applyNeonFilter` fill it only for interior pixels and leave border
entries at 0. -/
noncomputable def edgeAt (d : ℕ → ℤ) (w h x y : ℕ) : ℝ :=
  if 1 ≤ x ∧ x < w - 1 ∧ 1 ≤ y ∧ y < h - 1 then
    Real.sqrt ((sobelGx d w (y * w + x) : ℝ) * (sobelGx d w (y * w + x) : ℝ)
      + (sobelGy d w (y * w + x) : ℝ) * (sobelGy d w (y * w + x) : ℝ))
  else 0

/-- The frame's maximum Sobel edge magnitude (`maxEdge` in
`applyNeonFilter`), a running maximum over all `w * h` linear indices
starting from 0. -/
noncomputable def maxEdge (d : ℕ → ℤ) (w h : ℕ) : ℝ :=
  ((List.range (w * h)).map (fun i => edgeAt d w h (i % w) (i / w))).foldl max 0

/-- The normalization factor `invMax = maxEdge > 0 ? 1 / maxEdge : 0`
(`applyNeonFilter`). -/
noncomputable def invMax (d : ℕ → ℤ) (w h : ℕ) : ℝ :=
  if 0 < maxEdge d w h then 1 / maxEdge d w h else 0

/-- Neon colour (red channel) looked up from the zone map
(`applyNeonFilter`): a fully transparent zone pixel yields the dark
background value 8, otherwise the zone pixel's own red byte. -/
def neonColorR (zd : ℕ → ℤ) (i : ℕ) : ℤ :=
  if zd (4 * i + 3) = 0 then 8 else clampToByte ((zd (4 * i) : ℚ))

/-- Neon colour, green channel (transparent zone pixel yields 5). -/
def neonColorG (zd : ℕ → ℤ) (i : ℕ) : ℤ :=
  if zd (4 * i + 3) = 0 then 5 else clampToByte ((zd (4 * i + 1) : ℚ))

/-- Neon colour, blue channel (transparent zone pixel yields 20). -/
def neonColorB (zd : ℕ → ℤ) (i : ℕ) : ℤ :=
  if zd (4 * i + 3) = 0 then 20 else clampToByte ((zd (4 * i + 2) : ℚ))

/-- The squared boosted edge term of `applyNeonFilter`:
`e = Math.min(1, edge[i] * invMax * 2.5)` and `brightness = e * e`. -/
noncomputable def neonBrightness (d : ℕ → ℤ) (w h i : ℕ) : ℝ :=
  let e := min 1 (edgeAt d w h (i % w) (i / w) * invMax d w h * 2.5)
  e * e

/-- The `out` buffer of `applyNeonFilter` right after the composition
loop (dark background plus brightness-scaled neon colour, alpha copied
from the input); the later glow loop only rewrites interior pixels of
frames with `h > 2 * glowRadius` and the final bloom passes happen on the
canvas, outside the pixel model. -/
noncomputable def neonOut (d zd : ℕ → ℤ) (w h : ℕ) : ℕ → ℤ := fun j =>
  let i := j / 4
  if j % 4 = 0 then
    clampToByte ((8 : ℝ) + neonBrightness d w h i * (neonColorR zd i : ℝ))
  else if j % 4 = 1 then
    clampToByte ((5 : ℝ) + neonBrightness d w h i * (neonColorG zd i : ℝ))
  else if j % 4 = 2 then
    clampToByte ((20 : ℝ) + neonBrightness d w h i * (neonColorB zd i : ℝ))
  else
    clampToByte ((d j : ℝ))

/-- Concrete 4×3 RGBA test frame for the neon filter: grey columns with
values 0, 0, 100, 200 and opaque alpha. -/
def exFrame : ℕ → ℤ := fun j =>
  if j % 4 = 3 then 255
  else if j / 4 % 4 = 2 then 100
  else if j / 4 % 4 = 3 then 200
  else 0

/-- Concrete fully transparent zone map (every byte 0). -/
def exZone : ℕ → ℤ := fun _ => 0

/-- Input shape accepted by the `savePizza` server action
(src/unnamed/part_009): optional fields are `none` when absent; the
nullable enums are `some none` when explicitly null. -/
structure PizzaInput where
  name : String
  toppings : List String
  mode : Option String
  leftToppings : Option (List String)
  rightToppings : Option (List String)
  animation : Option (Option String)
  filter : Option (Option String)

/-- An optional/nullable zod field check: absent (or null) passes,
otherwise the inner validator runs. -/
def optCheck {β : Type} (o : Option β) (p : β → Bool) : Bool :=
  match o with
  | none => true
  | some x => p x

/-- Embeds `pizzaSchema` (src/unnamed/part_009): the zod object
validation applied by `savePizza` before any record is created. -/
def pizzaSchemaCheck (d : PizzaInput) : Bool :=
  (1 ≤ d.name.length) && (d.name.length ≤ 50) &&
  (d.toppings.length ≤ 4) &&
  optCheck d.mode (fun m => m = "whole" || m = "half") &&
  optCheck d.leftToppings (fun l => l.length ≤ 4) &&
  optCheck d.rightToppings (fun l => l.length ≤ 4) &&
  optCheck d.animation (fun x => optCheck x
    (fun a => a = "cw" || a = "ccw" || a = "wave" || a = "wave-ccw" || a = "flip")) &&
  optCheck d.filter (fun x => optCheck x
    (fun f => f = "mono" || f = "neon" || f = "negative"))

/-- The record created by a successful `savePizza` (defaults applied as
in the schema: mode defaults to whole, half lists to empty, the nullable
enums to null). -/
structure PizzaRecord where
  name : String
  toppings : List String
  mode : String
  leftToppings : List String
  rightToppings : List String
  animation : Option String
  filter : Option String

/-- Result of the `savePizza` server action: an error message or the
persisted record. -/
inductive SaveResult where
  | error (msg : String)
  | ok (record : PizzaRecord)

/-- Embeds `savePizza` (src/unnamed/part_009): unauthenticated calls
error out, invalid data errors out before any record is created, and
valid data yields the persisted record with schema defaults applied. -/
def savePizza (authed : Bool) (data : PizzaInput) : SaveResult :=
  if !authed then .error "Not authenticated"
  else if !(pizzaSchemaCheck data) then .error "Invalid pizza data"
  else .ok {
    name := data.name
    toppings := data.toppings
    mode := data.mode.getD "whole"
    leftToppings := data.leftToppings.getD []
    rightToppings := data.rightToppings.getD []
    animation := (data.animation.getD none)
    filter := (data.filter.getD none) }

/-- Constraints on a save input exactly as the claim enumerates them
(name nonempty and at most 50 characters, the three topping lists at most
4 entries, animation and filter in their enums or null); stated from the
spec's words for comparison with `pizzaSchemaCheck`. -/
def claimedSaveConstraints (d : PizzaInput) : Prop :=
  1 ≤ d.name.length ∧ d.name.length ≤ 50 ∧
  d.toppings.length ≤ 4 ∧
  (∀ l, d.leftToppings = some l → l.length ≤ 4) ∧
  (∀ l, d.rightToppings = some l → l.length ≤ 4) ∧
  (∀ a, d.animation = some (some a) →
    a = "cw" ∨ a = "ccw" ∨ a = "wave" ∨ a = "wave-ccw" ∨ a = "flip") ∧
  (∀ f, d.filter = some (some f) →
    f = "mono" ∨ f = "neon" ∨ f = "negative")

/-- For a positive modulus the positive-modulo idiom computes the
floor-based (always nonnegative) remainder. -/
theorem posMod_eq (a b : ℚ) (hb : 0 < b) : posMod a b = b * Int.fract (a / b) := by
  have hbne : b ≠ 0 := ne_of_gt hb
  have hab : b * (a / b) = a := by
    rw [mul_comm]
    exact div_mul_cancel₀ a hbne
  have hfl : (⌊a / b⌋ : ℚ) ≤ a / b := Int.floor_le _
  have hlt1 : a / b < ⌊a / b⌋ + 1 := Int.lt_floor_add_one _
  have hfr : Int.fract (a / b) = a / b - ⌊a / b⌋ := (Int.self_sub_floor _).symm
  set r : ℚ := b * Int.fract (a / b) with hr_def
  have hr0 : 0 ≤ r := mul_nonneg hb.le (by rw [hfr]; linarith)
  have hrb : r < b := by
    rw [hr_def, hfr]
    calc b * (a / b - ⌊a / b⌋) < b * 1 := by
          apply (mul_lt_mul_left hb).mpr
          linarith
    _ = b := mul_one b
  have key2 : ∀ x : ℚ, 0 ≤ x → x < b → jsMod (x + b) b = x := by
    intro x hx0 hxb
    have hq0 : (0 : ℚ) ≤ (x + b) / b := div_nonneg (by linarith) hb.le
    have hq1 : (1 : ℚ) ≤ (x + b) / b := by
      rw [le_div_iff₀ hb]
      linarith
    have hq2 : (x + b) / b < 2 := by
      rw [div_lt_iff₀ hb]
      linarith
    have hfl2 : ⌊(x + b) / b⌋ = 1 := by
      rw [Int.floor_eq_iff]
      constructor
      · exact_mod_cast hq1
      · push_cast
        linarith
    unfold jsMod ratTrunc
    rw [if_pos hq0, hfl2]
    push_cast
    ring
  have step1 : jsMod a b + b = r + b ∨ jsMod a b + b = r := by
    rcases le_or_lt 0 (a / b) with h0 | h0
    · left
      unfold jsMod ratTrunc
      rw [if_pos h0, hr_def, hfr, mul_sub, hab]
    · rcases eq_or_lt_of_le hfl with heq | hlt2
      · left
        have hceil : ⌈a / b⌉ = ⌊a / b⌋ := by
          rw [Int.ceil_eq_iff]
          exact ⟨by linarith, by linarith⟩
        unfold jsMod ratTrunc
        rw [if_neg (not_le.mpr h0), hceil, hr_def, hfr, mul_sub, hab]
      · right
        have hceil : ⌈a / b⌉ = ⌊a / b⌋ + 1 := by
          rw [Int.ceil_eq_iff]
          constructor
          · push_cast
            linarith
          · push_cast
            linarith
        unfold jsMod ratTrunc
        rw [if_neg (not_le.mpr h0), hceil, hr_def, hfr, mul_sub, hab]
        push_cast
        ring
  rcases step1 with h | h
  · rw [posMod, h, key2 r hr0 hrb]
  · rw [posMod, h]
    have hq0 : 0 ≤ r / b := div_nonneg hr0 hb.le
    have hq2 : r / b < 1 := by
      rw [div_lt_one hb]
      exact hrb
    have hfl0 : ⌊r / b⌋ = 0 := by
      rw [Int.floor_eq_iff]
      constructor
      · exact_mod_cast hq0
      · push_cast
        linarith
    unfold jsMod ratTrunc
    rw [if_pos hq0, hfl0]
    push_cast
    ring

/-- The wrapped time is unchanged by a shift of one full modulus. -/
theorem posMod_add_self (a b : ℚ) (hb : 0 < b) : posMod (a + b) b = posMod a b := by
  have hbne : b ≠ 0 := ne_of_gt hb
  rw [posMod_eq _ _ hb, posMod_eq _ _ hb]
  have hdiv : (a + b) / b = a / b + 1 := by
    rw [add_div, div_self hbne]
  rw [hdiv]
  have hshift := Int.fract_add_int (a / b) 1
  push_cast at hshift
  rw [hshift]

/-- The wrapped time lies in `[0, b)`. -/
theorem posMod_mem (a b : ℚ) (hb : 0 < b) : 0 ≤ posMod a b ∧ posMod a b < b := by
  rw [posMod_eq _ _ hb]
  refine ⟨mul_nonneg hb.le (Int.fract_nonneg _), ?_⟩
  calc b * Int.fract (a / b) < b * 1 :=
        (mul_lt_mul_left hb).mpr (Int.fract_lt_one _)
  _ = b := mul_one b

/-- Monotonicity of the easing curve on `[0, 1]`. -/
theorem easeInOutCubic_mono (a b : ℚ) (ha : 0 ≤ a) (hab : a ≤ b) (hb : b ≤ 1) :
    easeInOutCubic a ≤ easeInOutCubic b := by
  have hcube : ∀ x y : ℚ, 0 ≤ x → x ≤ y → x * x * x ≤ y * y * y := by
    intro x y hx hxy
    nlinarith [mul_nonneg hx hx, sq_nonneg (x + y), sq_nonneg (x - y),
      mul_nonneg (sub_nonneg.mpr hxy) (sq_nonneg (x + y))]
  unfold easeInOutCubic
  rw [show (0.5 : ℚ) = 1 / 2 by norm_num]
  rcases lt_or_le a (1/2) with h1 | h1 <;> rcases lt_or_le b (1/2) with h2 | h2
  · rw [if_pos h1, if_pos h2]
    nlinarith [hcube a b ha hab]
  · rw [if_pos h1, if_neg (not_lt.mpr h2)]
    have hcap := hcube a (1/2) ha h1.le
    have hx0 : (0 : ℚ) ≤ -2 * b + 2 := by linarith
    have hx1 : -2 * b + 2 ≤ 1 := by linarith
    have hc1 := hcube (-2 * b + 2) 1 hx0 hx1
    nlinarith [hcap, hc1]
  · exfalso
    linarith
  · rw [if_neg (not_lt.mpr h1), if_neg (not_lt.mpr h2)]
    have hd := hcube (-2 * b + 2) (-2 * a + 2) (by linarith) (by linarith)
    nlinarith [hd]

/-- The easing curve maps `[0, 1]` into `[0, 1]`. -/
theorem easeInOutCubic_mem (t : ℚ) (h0 : 0 ≤ t) (h1 : t ≤ 1) :
    0 ≤ easeInOutCubic t ∧ easeInOutCubic t ≤ 1 := by
  have hlo := easeInOutCubic_mono 0 t le_rfl h0 h1
  have hhi := easeInOutCubic_mono t 1 h0 h1 le_rfl
  have he0 : easeInOutCubic 0 = 0 := by norm_num [easeInOutCubic]
  have he1 : easeInOutCubic 1 = 1 := by norm_num [easeInOutCubic]
  rw [he0] at hlo
  rw [he1] at hhi
  exact ⟨hlo, hhi⟩

/-- C2: the cubic ease-in-out satisfies `easeInOutCubic 0 = 0`,
`easeInOutCubic 1 = 1`, `easeInOutCubic 0.5 = 0.5`, and is monotonically
non-decreasing on `[0, 1]`. -/
theorem easeInOutCubic_spec :
    easeInOutCubic 0 = 0 ∧ easeInOutCubic 1 = 1 ∧
    easeInOutCubic 0.5 = 0.5 ∧
    ∀ a b : ℚ, 0 ≤ a → a ≤ b → b ≤ 1 → easeInOutCubic a ≤ easeInOutCubic b :=
  ⟨by norm_num [easeInOutCubic], by norm_num [easeInOutCubic],
    by norm_num [easeInOutCubic], easeInOutCubic_mono⟩

/-- Witness for C2: the monotonicity clause applied at `a = 1/4 ≤ b = 3/4`. -/
theorem easeInOutCubic_spec_witness :
    easeInOutCubic (1/4) ≤ easeInOutCubic (3/4) :=
  easeInOutCubic_spec.2.2.2 (1/4) (3/4) (by norm_num) (by norm_num) (by norm_num)

/-- Branch form of the flip angle over the wrapped time, with the phase
constants evaluated. -/
theorem getFlipAngle_def (time : ℚ) :
    getFlipAngle time =
      if posMod time 2.1 < 0.7 then
        (easeInOutCubic (posMod time 2.1 / 0.7) : ℝ) * Real.pi
      else if posMod time 2.1 < 1.05 then Real.pi
      else if posMod time 2.1 < 1.75 then
        Real.pi + (easeInOutCubic ((posMod time 2.1 - 0.7 - 0.35) / 0.7) : ℝ) * Real.pi
      else 0 := by
  unfold getFlipAngle
  norm_num

/-- C1 (amended): the flip angle is periodic with period 2.1 s, and its
value lies in the closed interval `[0, 2π]` (the second half of the cycle
eases from π up to 2π, so `[0, π]` does not contain the range). -/
theorem getFlipAngle_periodic_and_range (t : ℚ) :
    getFlipAngle (t + 2.1) = getFlipAngle t ∧
    0 ≤ getFlipAngle t ∧ getFlipAngle t ≤ 2 * Real.pi := by
  have hpi := Real.pi_pos
  constructor
  · rw [getFlipAngle_def, getFlipAngle_def, posMod_add_self t 2.1 (by norm_num)]
  · rw [getFlipAngle_def]
    obtain ⟨hu0, hu1⟩ := posMod_mem t 2.1 (by norm_num)
    set u := posMod t 2.1 with hu_def
    by_cases h1 : u < 0.7
    · rw [if_pos h1]
      have harg0 : (0 : ℚ) ≤ u / 0.7 := div_nonneg hu0 (by norm_num)
      have harg1 : u / 0.7 ≤ 1 := by
        rw [div_le_one (by norm_num)]
        linarith
      obtain ⟨he0, he1⟩ := easeInOutCubic_mem _ harg0 harg1
      have he0R : (0 : ℝ) ≤ (easeInOutCubic (u / 0.7) : ℝ) := by exact_mod_cast he0
      have he1R : (easeInOutCubic (u / 0.7) : ℝ) ≤ 1 := by exact_mod_cast he1
      constructor
      · exact mul_nonneg he0R hpi.le
      · nlinarith
    · rw [if_neg h1]
      by_cases h2 : u < 1.05
      · rw [if_pos h2]
        constructor <;> linarith
      · rw [if_neg h2]
        by_cases h3 : u < 1.75
        · rw [if_pos h3]
          push_neg at h1 h2
          have harg0 : (0 : ℚ) ≤ (u - 0.7 - 0.35) / 0.7 := by
            apply div_nonneg _ (by norm_num)
            linarith
          have harg1 : (u - 0.7 - 0.35) / 0.7 ≤ 1 := by
            rw [div_le_one (by norm_num)]
            linarith
          obtain ⟨he0, he1⟩ := easeInOutCubic_mem _ harg0 harg1
          have he0R : (0 : ℝ) ≤ (easeInOutCubic ((u - 0.7 - 0.35) / 0.7) : ℝ) := by
            exact_mod_cast he0
          have he1R : (easeInOutCubic ((u - 0.7 - 0.35) / 0.7) : ℝ) ≤ 1 := by
            exact_mod_cast he1
          constructor
          · nlinarith
          · nlinarith
        · rw [if_neg h3]
          constructor <;> linarith

/-- Counterexample for C1 as frozen: at time 1.4 s (mid second flip) the
angle is 3π/2, outside `[0, π]`. -/
theorem getFlipAngle_not_in_pi_interval : ¬ (getFlipAngle 1.4 ≤ Real.pi) := by
  have hpi := Real.pi_pos
  have hpm : posMod (1.4 : ℚ) 2.1 = 1.4 := by
    rw [posMod_eq _ _ (by norm_num)]
    have hq : (1.4 : ℚ) / 2.1 = 2 / 3 := by norm_num
    rw [hq]
    have hfl : ⌊(2 / 3 : ℚ)⌋ = 0 := by
      rw [Int.floor_eq_iff]
      norm_num
    rw [Int.fract, hfl]
    norm_num
  rw [getFlipAngle_def, hpm]
  norm_num
  rw [show easeInOutCubic (1 / 2) = 1 / 2 by norm_num [easeInOutCubic]]
  push_cast
  nlinarith

/-- A wave loop body value (ease of a clamped progress, scaled by 2π)
lies in `[0, 2π]`. -/
theorem waveBody_bounds (q : ℚ) :
    0 ≤ ((easeInOutCubic (max 0 (min 1 q)) : ℚ) : ℝ) * Real.pi * 2 ∧
    ((easeInOutCubic (max 0 (min 1 q)) : ℚ) : ℝ) * Real.pi * 2 ≤ 2 * Real.pi := by
  have hpi := Real.pi_pos
  have hp0 : (0 : ℚ) ≤ max 0 (min 1 q) := le_max_left _ _
  have hp1 : max 0 (min 1 q) ≤ 1 := max_le (by norm_num) (min_le_left _ _)
  obtain ⟨he0, he1⟩ := easeInOutCubic_mem _ hp0 hp1
  have he0R : (0 : ℝ) ≤ ((easeInOutCubic (max 0 (min 1 q)) : ℚ) : ℝ) := by exact_mod_cast he0
  have he1R : ((easeInOutCubic (max 0 (min 1 q)) : ℚ) : ℝ) ≤ 1 := by exact_mod_cast he1
  constructor
  · positivity
  · nlinarith

/-- Every element of the wave-offset list arises from the loop body. -/
theorem getWaveOffsets_getD (t : ℚ) (r : Bool) (k : ℕ) (hk : k < 8) :
    (getWaveOffsets t r).getD k 0 =
      ((easeInOutCubic (max 0 (min 1 ((posMod t (0.8 + 7 * (0.25 * 0.8)) -
        ((if r then 7 - k else k : ℕ) : ℚ) * (0.25 * 0.8)) / 0.8))) : ℚ) : ℝ)
        * Real.pi * 2 := by
  unfold getWaveOffsets
  rw [List.getD_eq_getElem?_getD, List.getElem?_ofFn]
  simp only [List.ofFnNthVal, hk, dif_pos, Option.getD_some]

/-- C3: the reversed wave schedule mirrors the forward one at every time,
and every wave offset lies in `[0, 2π]`. -/
theorem getWaveOffsets_mirror_and_range (t : ℚ) (k : ℕ) (hk : k < 8) :
    (getWaveOffsets t true).getD k 0 = (getWaveOffsets t false).getD (7 - k) 0 ∧
    ∀ (r : Bool), ∀ x ∈ getWaveOffsets t r, 0 ≤ x ∧ x ≤ 2 * Real.pi := by
  constructor
  · rw [getWaveOffsets_getD t true k hk, getWaveOffsets_getD t false (7 - k) (by omega)]
    have hidx : 7 - (7 - k) = k := by omega
    simp [hidx]
  · intro r x hx
    unfold getWaveOffsets at hx
    rw [List.mem_ofFn] at hx
    obtain ⟨s, hs⟩ := hx
    rw [← hs]
    exact waveBody_bounds _

/-- Witness for C3: at time 0 the reversed offset of wedge 2 equals the
forward offset of wedge 5, and the head of the forward list is in range. -/
theorem getWaveOffsets_mirror_witness :
    (getWaveOffsets 0 true).getD 2 0 = (getWaveOffsets 0 false).getD 5 0 ∧
    ∀ x ∈ getWaveOffsets 0 false, 0 ≤ x ∧ x ≤ 2 * Real.pi :=
  ⟨(getWaveOffsets_mirror_and_range 0 2 (by norm_num)).1,
   (getWaveOffsets_mirror_and_range 0 2 (by norm_num)).2 false⟩

/-- C4: `distributePositions` returns `min n 4` lists; the lists have
length 5, 4, 3 in the cases n = 1, 2, 3 and length 2 for n ≥ 4, and every
slot index is one of the nine table slots. -/
theorem distributePositions_spec (n : ℕ) :
    (distributePositions n).length = min n 4 ∧
    (n = 1 → ∀ l ∈ distributePositions n, l.length = 5) ∧
    (n = 2 → ∀ l ∈ distributePositions n, l.length = 4) ∧
    (n = 3 → ∀ l ∈ distributePositions n, l.length = 3) ∧
    (4 ≤ n → ∀ l ∈ distributePositions n, l.length = 2) ∧
    (∀ l ∈ distributePositions n, ∀ i ∈ l, i < 9) := by
  match n with
  | 0 => decide
  | 1 => decide
  | 2 => decide
  | 3 => decide
  | (m + 4) =>
    have hd : distributePositions (m + 4) = [[0, 8], [1, 5], [4, 6], [3, 7]] := by
      unfold distributePositions
      rw [if_neg (by omega), if_neg (by omega), if_neg (by omega), if_neg (by omega)]
    refine ⟨by rw [hd]; simp, by omega, by omega, by omega, ?_, ?_⟩
    · intro _ l hl
      rw [hd] at hl
      fin_cases hl <;> decide
    · intro l hl
      rw [hd] at hl
      fin_cases hl <;> decide

/-- Witness for C4: seven selected toppings still give 4 lists of length
2, and for two toppings the first list has length 4. -/
theorem distributePositions_spec_witness :
    (distributePositions 7).length = min 7 4 ∧
    (∀ l ∈ distributePositions 7, l.length = 2) ∧
    (∀ l ∈ distributePositions 2, l.length = 4) :=
  ⟨(distributePositions_spec 7).1,
   (distributePositions_spec 7).2.2.2.2.1 (by omega),
   (distributePositions_spec 2).2.2.1 rfl⟩

/-- C10: the slot lists handed to the selected toppings are pairwise
disjoint subsets of the 9-entry position table, for every count. -/
theorem distributePositions_disjoint (n : ℕ) :
    List.Pairwise (fun a b => ∀ x ∈ a, x ∉ b) (distributePositions n) ∧
    ∀ l ∈ distributePositions n, ∀ i ∈ l, i < SLICE_POSITIONS.length := by
  match n with
  | 0 => decide
  | 1 => decide
  | 2 => decide
  | 3 => decide
  | (m + 4) =>
    have hd : distributePositions (m + 4) = [[0, 8], [1, 5], [4, 6], [3, 7]] := by
      unfold distributePositions
      rw [if_neg (by omega), if_neg (by omega), if_neg (by omega), if_neg (by omega)]
    rw [hd]
    exact ⟨by decide, by decide⟩

/-- Witness for C10: slot index 0 of the single-topping list is a valid
index into the position table. -/
theorem distributePositions_disjoint_witness :
    0 < SLICE_POSITIONS.length :=
  (distributePositions_disjoint 1).2 [0, 1, 4, 6, 8] (by decide) 0 (by decide)

/-- One toggle keeps the selection within the cap. -/
theorem toggleTopping_card_le (s : Finset String) (t : String) (h : s.card ≤ 4) :
    (toggleTopping s t).card ≤ 4 := by
  unfold toggleTopping MAX_TOPPINGS
  split_ifs with h1 h2
  · exact le_trans (Finset.card_erase_le) h
  · exact le_trans (Finset.card_insert_le _ _) (by omega)
  · exact h

/-- Any toggle sequence from a capped state stays capped. -/
theorem toggleTopping_foldl_card_le (ops : List String) (s : Finset String)
    (h : s.card ≤ 4) : (ops.foldl toggleTopping s).card ≤ 4 := by
  induction ops generalizing s with
  | nil => exact h
  | cons op rest ih =>
    exact ih _ (toggleTopping_card_le s op h)

/-- C5: from the empty selection every toggle sequence keeps the size at
most 4; toggling a present id removes it regardless of size, and toggling
a new id at the cap is a no-op. -/
theorem toggleTopping_spec :
    (∀ ops : List String, (ops.foldl toggleTopping ∅).card ≤ 4) ∧
    (∀ (s : Finset String) (t : String), t ∈ s → toggleTopping s t = s.erase t) ∧
    (∀ (s : Finset String) (t : String), t ∉ s → s.card = 4 → toggleTopping s t = s) := by
  refine ⟨fun ops => toggleTopping_foldl_card_le ops ∅ (by simp), ?_, ?_⟩
  · intro s t ht
    unfold toggleTopping
    rw [if_pos ht]
  · intro s t ht hcard
    unfold toggleTopping MAX_TOPPINGS
    rw [if_neg ht, if_neg (by omega)]

/-- Witness for C5: a five-element toggle sequence ends below the cap,
and a toggle of a present element erases it. -/
theorem toggleTopping_spec_witness :
    ((["a", "b", "c", "d", "e"].foldl toggleTopping ∅).card ≤ 4) ∧
    toggleTopping {"a"} "a" = Finset.erase {"a"} "a" ∧
    toggleTopping {"a", "b", "c", "d"} "e" = {"a", "b", "c", "d"} :=
  ⟨toggleTopping_spec.1 ["a", "b", "c", "d", "e"],
   toggleTopping_spec.2.1 {"a"} "a" (by decide),
   toggleTopping_spec.2.2 {"a", "b", "c", "d"} "e" (by decide) (by decide)⟩

/-- Round-half-to-even is the identity on integers. -/
theorem roundHalfEven_intCast {α : Type} [LinearOrderedField α] [FloorRing α] (n : ℤ) :
    roundHalfEven ((n : α)) = n := by
  unfold roundHalfEven
  rw [Int.floor_intCast]
  rw [if_pos]
  rw [sub_self]
  exact one_half_pos

/-- A byte store is the identity on integers already in `[0, 255]`. -/
theorem clampToByte_intCast {α : Type} [LinearOrderedField α] [FloorRing α]
    (n : ℤ) (h0 : 0 ≤ n) (h1 : n ≤ 255) : clampToByte ((n : α)) = n := by
  unfold clampToByte
  rw [roundHalfEven_intCast]
  omega

/-- A byte store always lands in `[0, 255]`. -/
theorem clampToByte_mem {α : Type} [LinearOrderedField α] [FloorRing α] (q : α) :
    0 ≤ clampToByte q ∧ clampToByte q ≤ 255 := by
  unfold clampToByte
  omega

/-- The mono filter at a colour channel reads the three colour bytes of
the channel's own pixel block. -/
theorem applyMonoFilter_pixel (d : ℕ → ℤ) (j : ℕ) (h : j % 4 ≠ 3) :
    applyMonoFilter d j =
      clampToByte (0.299 * (d (4 * (j / 4)) : ℚ) + 0.587 * (d (4 * (j / 4) + 1) : ℚ)
        + 0.114 * (d (4 * (j / 4) + 2) : ℚ)) := by
  unfold applyMonoFilter
  rw [if_neg h]

/-- The mono filter leaves the alpha channel untouched. -/
theorem applyMonoFilter_alpha (d : ℕ → ℤ) (j : ℕ) (h : j % 4 = 3) :
    applyMonoFilter d j = d j := by
  unfold applyMonoFilter
  rw [if_pos h]

/-- C7: the monochrome filter writes the luminance
`0.299 R + 0.587 G + 0.114 B` into every colour channel, leaves alpha
untouched, and is idempotent: a second application changes nothing. -/
theorem applyMonoFilter_spec :
    (∀ d : ℕ → ℤ, applyMonoFilter (applyMonoFilter d) = applyMonoFilter d) ∧
    (∀ (d : ℕ → ℤ) (j : ℕ), j % 4 = 3 → applyMonoFilter d j = d j) ∧
    (∀ (d : ℕ → ℤ) (j : ℕ), j % 4 ≠ 3 → applyMonoFilter d j =
      clampToByte (0.299 * (d (4 * (j / 4)) : ℚ) + 0.587 * (d (4 * (j / 4) + 1) : ℚ)
        + 0.114 * (d (4 * (j / 4) + 2) : ℚ))) := by
  refine ⟨?_, applyMonoFilter_alpha, applyMonoFilter_pixel⟩
  intro d
  funext j
  by_cases hj : j % 4 = 3
  · rw [applyMonoFilter_alpha _ _ hj, applyMonoFilter_alpha _ _ hj]
  · rw [applyMonoFilter_pixel _ _ hj, applyMonoFilter_pixel _ _ hj]
    have hblock : ∀ i : ℕ, i % 4 ≠ 3 → i / 4 = j / 4 →
        applyMonoFilter d i =
          clampToByte (0.299 * (d (4 * (j / 4)) : ℚ) + 0.587 * (d (4 * (j / 4) + 1) : ℚ)
            + 0.114 * (d (4 * (j / 4) + 2) : ℚ)) := by
      intro i hi hdiv
      rw [applyMonoFilter_pixel _ _ hi, hdiv]
    have e0 := hblock (4 * (j / 4)) (by omega) (by omega)
    have e1 := hblock (4 * (j / 4) + 1) (by omega) (by omega)
    have e2 := hblock (4 * (j / 4) + 2) (by omega) (by omega)
    rw [e0, e1, e2]
    obtain ⟨hg0, hg255⟩ := clampToByte_mem (α := ℚ)
      (0.299 * (d (4 * (j / 4)) : ℚ) + 0.587 * (d (4 * (j / 4) + 1) : ℚ)
        + 0.114 * (d (4 * (j / 4) + 2) : ℚ))
    set g : ℤ := clampToByte (0.299 * (d (4 * (j / 4)) : ℚ) + 0.587 * (d (4 * (j / 4) + 1) : ℚ)
      + 0.114 * (d (4 * (j / 4) + 2) : ℚ)) with hgdef
    rw [show (0.299 * (g : ℚ) + 0.587 * (g : ℚ) + 0.114 * (g : ℚ)) = ((g : ℚ)) by ring]
    exact clampToByte_intCast g hg0 hg255

/-- Witness for C7: the alpha and colour clauses applied to the constant
buffer 100 at indices 3 and 0. -/
theorem applyMonoFilter_spec_witness :
    applyMonoFilter (fun _ => 100) 3 = 100 ∧
    applyMonoFilter (fun _ => 100) 0 =
      clampToByte (0.299 * ((100 : ℤ) : ℚ) + 0.587 * ((100 : ℤ) : ℚ) + 0.114 * ((100 : ℤ) : ℚ)) :=
  ⟨applyMonoFilter_spec.2.1 (fun _ => 100) 3 rfl,
   applyMonoFilter_spec.2.2 (fun _ => 100) 0 (by omega)⟩

/-- C6 (amended): the wedge scale is `|cos offset|` whenever that is
nonzero and is 0.001 exactly when `cos offset = 0`; it is always strictly
positive (but not floored at 0.001), and the back face is selected iff
`cos offset < 0`. -/
theorem scalePerp_spec (o : ℝ) :
    0 < scalePerp o ∧
    (Real.cos o ≠ 0 → scalePerp o = |Real.cos o|) ∧
    (Real.cos o = 0 → scalePerp o = 0.001) ∧
    (showBack o ↔ Real.cos o < 0) := by
  unfold scalePerp showBack
  by_cases h : |Real.cos o| = 0
  · rw [if_pos h]
    exact ⟨by norm_num, fun hc => absurd (abs_eq_zero.mp h) hc, fun _ => rfl, Iff.rfl⟩
  · rw [if_neg h]
    refine ⟨lt_of_le_of_ne (abs_nonneg _) (Ne.symm h), fun _ => rfl, ?_, Iff.rfl⟩
    intro hc
    exact absurd (by rw [hc, abs_zero]) h

/-- Witness for C6: at offset 0 the scale is `|cos 0| = 1` and the front
face is kept; at offset π/2 the scale is the fallback 0.001. -/
theorem scalePerp_spec_witness :
    0 < scalePerp 0 ∧ scalePerp 0 = |Real.cos 0| ∧
    scalePerp (Real.pi / 2) = 0.001 ∧ (showBack 0 ↔ Real.cos 0 < 0) :=
  ⟨(scalePerp_spec 0).1,
   (scalePerp_spec 0).2.1 (by rw [Real.cos_zero]; norm_num),
   (scalePerp_spec (Real.pi / 2)).2.2.1 Real.cos_pi_div_two,
   (scalePerp_spec 0).2.2.2⟩

/-- Counterexample for C6 as frozen: just short of edge-on the cosine is
a tiny nonzero number, so the applied scale drops strictly below the
claimed floor 0.001. -/
theorem scalePerp_below_floor :
    scalePerp (Real.pi / 2 - 0.0001) < 0.001 := by
  have hcos : Real.cos (Real.pi / 2 - 0.0001) = Real.sin 0.0001 :=
    Real.cos_pi_div_two_sub 0.0001
  have hspos : 0 < Real.sin 0.0001 :=
    Real.sin_pos_of_pos_of_lt_pi (by norm_num)
      (lt_trans (by norm_num) Real.pi_gt_three)
  have hslt : Real.sin 0.0001 < 0.0001 := Real.sin_lt (by norm_num)
  unfold scalePerp
  rw [hcos, abs_of_pos hspos, if_neg (ne_of_gt hspos)]
  linarith

/-- An optional zod check passes iff every present value passes. -/
theorem optCheck_eq_true {β : Type} (o : Option β) (p : β → Bool) :
    optCheck o p = true ↔ ∀ x, o = some x → p x = true := by
  cases o <;> simp [optCheck]

/-- C9 (amended): an authenticated save errors out (creating no record)
exactly when the schema rejects the input, and the schema accepts exactly
the inputs meeting the claim's constraints together with the additional
mode constraint (`mode`, when present, must be "whole" or "half"). -/
theorem savePizza_spec (d : PizzaInput) :
    (savePizza true d = SaveResult.error "Invalid pizza data" ↔ pizzaSchemaCheck d = false) ∧
    (pizzaSchemaCheck d = true ↔
      (claimedSaveConstraints d ∧ ∀ m, d.mode = some m → m = "whole" ∨ m = "half")) := by
  constructor
  · cases hc : pizzaSchemaCheck d <;> simp [savePizza, hc]
  · unfold pizzaSchemaCheck claimedSaveConstraints
    simp only [Bool.and_eq_true, optCheck_eq_true, Bool.or_eq_true, decide_eq_true_eq]
    constructor
    · rintro ⟨⟨⟨⟨⟨⟨⟨h1, h2⟩, h3⟩, h4⟩, h5⟩, h6⟩, h7⟩, h8⟩
      refine ⟨⟨h1, h2, h3, h5, h6, ?_, ?_⟩, h4⟩
      · intro a ha
        have := h7 (some a) ha a rfl
        tauto
      · intro f hf
        have := h8 (some f) hf f rfl
        tauto
    · rintro ⟨⟨h1, h2, h3, h5, h6, h7, h8⟩, h4⟩
      refine ⟨⟨⟨⟨⟨⟨⟨h1, h2⟩, h3⟩, h4⟩, h5⟩, h6⟩, ?_⟩, ?_⟩
      · intro x hx a ha
        subst ha
        have := h7 a hx
        tauto
      · intro x hx f hf
        subst hf
        have := h8 f hx
        tauto

/-- Witness for C9: a fully valid input satisfies the claim's constraints
(via the schema acceptance direction). -/
theorem savePizza_spec_witness :
    claimedSaveConstraints
      ⟨"Margherita", ["tomato"], some "whole", some [], none, some (some "wave"), some none⟩ :=
  (((savePizza_spec _).2).mp (by decide)).1

/-- Counterexample for C9 as frozen: an input meeting every constraint
the claim lists (name, list sizes, animation, filter) is still rejected,
because the schema also constrains the mode field. -/
theorem savePizza_mode_counterexample :
    claimedSaveConstraints ⟨"a", [], some "diagonal", none, none, none, none⟩ ∧
    savePizza true ⟨"a", [], some "diagonal", none, none, none, none⟩
      = SaveResult.error "Invalid pizza data" := by
  constructor
  · unfold claimedSaveConstraints
    refine ⟨by decide, by decide, by decide, ?_, ?_, ?_, ?_⟩ <;> intro x hx <;> simp at hx
  · rfl

/-- Border pixels keep the initial zero edge magnitude. -/
theorem edgeAt_border (d : ℕ → ℤ) (w h x y : ℕ)
    (hc : ¬(1 ≤ x ∧ x < w - 1 ∧ 1 ≤ y ∧ y < h - 1)) : edgeAt d w h x y = 0 := by
  unfold edgeAt
  rw [if_neg hc]

/-- Horizontal Sobel response of the test frame at pixel (1,1). -/
theorem exFrame_gx5 : sobelGx exFrame 4 5 = 400 := by
  norm_num [sobelGx, greyAt, exFrame]

/-- Vertical Sobel response of the test frame at pixel (1,1). -/
theorem exFrame_gy5 : sobelGy exFrame 4 5 = 0 := by
  norm_num [sobelGy, greyAt, exFrame]

/-- Horizontal Sobel response of the test frame at pixel (2,1). -/
theorem exFrame_gx6 : sobelGx exFrame 4 6 = 800 := by
  norm_num [sobelGx, greyAt, exFrame]

/-- Vertical Sobel response of the test frame at pixel (2,1). -/
theorem exFrame_gy6 : sobelGy exFrame 4 6 = 0 := by
  norm_num [sobelGy, greyAt, exFrame]

/-- Edge magnitude 400 at pixel (1,1) of the test frame. -/
theorem exFrame_edge5 : edgeAt exFrame 4 3 1 1 = 400 := by
  unfold edgeAt
  rw [if_pos (by norm_num)]
  rw [show (1 * 4 + 1 : ℕ) = 5 from rfl, exFrame_gx5, exFrame_gy5]
  push_cast
  rw [show (400 : ℝ) * 400 + 0 * 0 = 400 ^ 2 by norm_num]
  exact Real.sqrt_sq (by norm_num)

/-- Edge magnitude 800 at pixel (2,1) of the test frame. -/
theorem exFrame_edge6 : edgeAt exFrame 4 3 2 1 = 800 := by
  unfold edgeAt
  rw [if_pos (by norm_num)]
  rw [show (1 * 4 + 2 : ℕ) = 6 from rfl, exFrame_gx6, exFrame_gy6]
  push_cast
  rw [show (800 : ℝ) * 800 + 0 * 0 = 800 ^ 2 by norm_num]
  exact Real.sqrt_sq (by norm_num)

/-- The maximum edge magnitude of the test frame is 800. -/
theorem exFrame_maxEdge : maxEdge exFrame 4 3 = 800 := by
  have b0 : edgeAt exFrame 4 3 (0 % 4) (0 / 4) = 0 := edgeAt_border _ _ _ _ _ (by norm_num)
  have b1 : edgeAt exFrame 4 3 (1 % 4) (1 / 4) = 0 := edgeAt_border _ _ _ _ _ (by norm_num)
  have b2 : edgeAt exFrame 4 3 (2 % 4) (2 / 4) = 0 := edgeAt_border _ _ _ _ _ (by norm_num)
  have b3 : edgeAt exFrame 4 3 (3 % 4) (3 / 4) = 0 := edgeAt_border _ _ _ _ _ (by norm_num)
  have b4 : edgeAt exFrame 4 3 (4 % 4) (4 / 4) = 0 := edgeAt_border _ _ _ _ _ (by norm_num)
  have b5 : edgeAt exFrame 4 3 (5 % 4) (5 / 4) = 400 := by
    rw [show (5 : ℕ) % 4 = 1 from rfl, show (5 : ℕ) / 4 = 1 from rfl]
    exact exFrame_edge5
  have b6 : edgeAt exFrame 4 3 (6 % 4) (6 / 4) = 800 := by
    rw [show (6 : ℕ) % 4 = 2 from rfl, show (6 : ℕ) / 4 = 1 from rfl]
    exact exFrame_edge6
  have b7 : edgeAt exFrame 4 3 (7 % 4) (7 / 4) = 0 := edgeAt_border _ _ _ _ _ (by norm_num)
  have b8 : edgeAt exFrame 4 3 (8 % 4) (8 / 4) = 0 := edgeAt_border _ _ _ _ _ (by norm_num)
  have b9 : edgeAt exFrame 4 3 (9 % 4) (9 / 4) = 0 := edgeAt_border _ _ _ _ _ (by norm_num)
  have b10 : edgeAt exFrame 4 3 (10 % 4) (10 / 4) = 0 := edgeAt_border _ _ _ _ _ (by norm_num)
  have b11 : edgeAt exFrame 4 3 (11 % 4) (11 / 4) = 0 := edgeAt_border _ _ _ _ _ (by norm_num)
  unfold maxEdge
  rw [show ((4 : ℕ) * 3) = 12 from rfl]
  rw [show List.range 12 = [0, 1, 2, 3, 4, 5, 6, 7, 8, 9, 10, 11] from by decide]
  simp only [List.map_cons, List.map_nil, List.foldl_cons, List.foldl_nil]
  rw [b0, b1, b2, b3, b4, b5, b6, b7, b8, b9, b10, b11]
  rw [max_self, max_self, max_self, max_self, max_self,
      max_eq_right (by norm_num : (0 : ℝ) ≤ 400),
      max_eq_right (by norm_num : (400 : ℝ) ≤ 800),
      max_eq_left (by norm_num : (0 : ℝ) ≤ 800),
      max_eq_left (by norm_num : (0 : ℝ) ≤ 800),
      max_eq_left (by norm_num : (0 : ℝ) ≤ 800),
      max_eq_left (by norm_num : (0 : ℝ) ≤ 800),
      max_eq_left (by norm_num : (0 : ℝ) ≤ 800)]

/-- The normalization factor of the test frame. -/
theorem exFrame_invMax : invMax exFrame 4 3 = 1 / 800 := by
  unfold invMax
  rw [exFrame_maxEdge, if_pos (by norm_num)]

/-- At pixel (1,1) the normalized edge is 1/2, but the boosted cap
saturates: the stored brightness is 1, not 1/4. -/
theorem exFrame_bright5 : neonBrightness exFrame 4 3 5 = 1 := by
  unfold neonBrightness
  rw [show ((5 : ℕ) % 4) = 1 from rfl, show ((5 : ℕ) / 4) = 1 from rfl,
    exFrame_edge5, exFrame_invMax]
  rw [show (400 : ℝ) * (1 / 800) * 2.5 = 1.25 by norm_num]
  rw [min_eq_left (by norm_num : (1 : ℝ) ≤ 1.25)]
  norm_num

/-- The transparent zone map yields the dark-background red value. -/
theorem exZone_colorR : neonColorR exZone 5 = 8 := by
  norm_num [neonColorR, exZone]

/-- Counterexample for C8 as frozen: on the 4×3 test frame the composed
red byte at pixel (1,1) is 16 (the boosted brightness saturates at 1),
while dark background plus the squared normalized edge strength times the
neon colour would give 10. -/
theorem applyNeonFilter_claim_cex :
    neonOut exFrame exZone 4 3 20 ≠
      clampToByte ((8 : ℝ) + (edgeAt exFrame 4 3 1 1 * invMax exFrame 4 3)
        * (edgeAt exFrame 4 3 1 1 * invMax exFrame 4 3) * (neonColorR exZone 5 : ℝ)) := by
  have hL : neonOut exFrame exZone 4 3 20 = 16 := by
    simp only [neonOut, show (20 : ℕ) / 4 = 5 from rfl]
    rw [if_pos trivial]
    rw [exFrame_bright5, exZone_colorR]
    rw [show (8 : ℝ) + 1 * ((8 : ℤ) : ℝ) = ((16 : ℤ) : ℝ) by push_cast; norm_num]
    rw [clampToByte_intCast 16 (by norm_num) (by norm_num)]
  have hR : clampToByte ((8 : ℝ) + (edgeAt exFrame 4 3 1 1 * invMax exFrame 4 3)
      * (edgeAt exFrame 4 3 1 1 * invMax exFrame 4 3) * (neonColorR exZone 5 : ℝ)) = 10 := by
    rw [exFrame_edge5, exFrame_invMax, exZone_colorR]
    rw [show (8 : ℝ) + 400 * (1 / 800) * (400 * (1 / 800)) * ((8 : ℤ) : ℝ) = ((10 : ℤ) : ℝ) by
      push_cast; norm_num]
    rw [clampToByte_intCast 10 (by norm_num) (by norm_num)]
  rw [hL, hR]
  decide

/-- C8 (amended): the normalization factor is 0 whenever the maximum
Sobel magnitude is 0; a fully transparent zone pixel yields the dark
background colour (8, 5, 20) and an opaque one its own RGB; and each
composed output pixel is the dark background plus the square of the
BOOSTED normalized edge strength `min 1 (edge / max * 2.5)` times the
neon colour, clamped, with alpha copied from the input. -/
theorem applyNeonFilter_compose_spec (d zd : ℕ → ℤ) (w h i j : ℕ) :
    (maxEdge d w h = 0 → invMax d w h = 0) ∧
    (zd (4 * i + 3) = 0 →
      neonColorR zd i = 8 ∧ neonColorG zd i = 5 ∧ neonColorB zd i = 20) ∧
    (zd (4 * i + 3) ≠ 0 →
      (0 ≤ zd (4 * i) → zd (4 * i) ≤ 255 → neonColorR zd i = zd (4 * i)) ∧
      (0 ≤ zd (4 * i + 1) → zd (4 * i + 1) ≤ 255 → neonColorG zd i = zd (4 * i + 1)) ∧
      (0 ≤ zd (4 * i + 2) → zd (4 * i + 2) ≤ 255 → neonColorB zd i = zd (4 * i + 2))) ∧
    (neonBrightness d w h i =
      min 1 (edgeAt d w h (i % w) (i / w) * invMax d w h * 2.5) *
      min 1 (edgeAt d w h (i % w) (i / w) * invMax d w h * 2.5)) ∧
    (j % 4 = 0 → neonOut d zd w h j =
      clampToByte ((8 : ℝ) + neonBrightness d w h (j / 4) * (neonColorR zd (j / 4) : ℝ))) ∧
    (j % 4 = 3 → 0 ≤ d j → d j ≤ 255 → neonOut d zd w h j = d j) := by
  refine ⟨?_, ?_, ?_, rfl, ?_, ?_⟩
  · intro hm
    unfold invMax
    rw [hm]
    norm_num
  · intro hz
    unfold neonColorR neonColorG neonColorB
    rw [if_pos hz, if_pos hz, if_pos hz]
    exact ⟨rfl, rfl, rfl⟩
  · intro hz
    refine ⟨fun h0 h1 => ?_, fun h0 h1 => ?_, fun h0 h1 => ?_⟩
    · unfold neonColorR
      rw [if_neg hz]
      exact clampToByte_intCast _ h0 h1
    · unfold neonColorG
      rw [if_neg hz]
      exact clampToByte_intCast _ h0 h1
    · unfold neonColorB
      rw [if_neg hz]
      exact clampToByte_intCast _ h0 h1
  · intro hj
    simp only [neonOut]
    rw [if_pos hj]
  · intro hj h0 h1
    simp only [neonOut]
    rw [if_neg (by omega), if_neg (by omega), if_neg (by omega)]
    exact clampToByte_intCast _ h0 h1

/-- Witness for C8: on an empty frame the normalization factor is 0, the
transparent zone yields red 8, and the alpha byte is copied. -/
theorem applyNeonFilter_compose_spec_witness :
    invMax (fun _ => 0) 0 0 = 0 ∧
    neonColorR (fun _ => 0) 0 = 8 ∧
    neonOut (fun _ => 0) (fun _ => 0) 0 0 3 = 0 :=
  ⟨(applyNeonFilter_compose_spec (fun _ => 0) (fun _ => 0) 0 0 0 3).1 (by simp [maxEdge]),
   ((applyNeonFilter_compose_spec (fun _ => 0) (fun _ => 0) 0 0 0 3).2.1 rfl).1,
   (applyNeonFilter_compose_spec (fun _ => 0) (fun _ => 0) 0 0 0 3).2.2.2.2.2 rfl le_rfl
     (by norm_num)⟩
